import Mathlib

/-!
Verification of the tag-name parsing and CSV pivot/naming core of
`tag_reader.py` (a PLC tag-reading desktop utility).

The Python functions are shallowly embedded as Lean functions:

* `extract_index`      embeds `extract_index` (tag_reader.py lines 46-55);
* `extract_child_names` embeds `extract_child_names` (lines 57-64), with
  `Except.error "AttributeError"` standing for the uncaught `AttributeError`
  that Python raises when `re.search` returns `None` and `.group(1)` is called;
* `flatten_dict`       embeds `flatten_dict` (lines 104-120), Python dicts
  being modelled as insertion-ordered association lists (`dictOfPairs`
  reproduces the semantics of the `dict(items)` constructor: a duplicate key
  keeps its first position and takes its last value);
* `reserveName`        embeds the revision-suffix search of `format_csv`
  (lines 83-89); the unbounded `while` loop is given an explicit fuel
  argument, and the theorems assume enough fuel (which is exactly the
  real-world condition that the directory holds finitely many files);
* `pivotArrayE` / `pivotScalar` embed the two pivot branches of `format_csv`
  (lines 72-81), the pandas `pivot_table(index='index', columns='child_name',
  values='value', aggfunc='first')` call being modelled by sorted-deduplicated
  index/column lists and a first-match cell lookup;
* `format_csv`         embeds the control flow of `format_csv` (lines 66-101):
  the raw-file read outcome is an `Except` parameter (the filesystem is an
  external collaborator), the directory state is a list of existing file
  names, and the `try/except` block maps any raised exception to the
  `(false, unchanged-state)` outcome.

Regex notes (the embeddings are derived from the Python regexes, including
the `re` module's conventions): `.` does not match a newline; `$` matches at
the end of the string or before a terminal newline; `re.findall` scans left
to right and resumes after each match (for the pattern `\[(\d+)\]` two
matches can never overlap, because a match contains no `[` after its first
character, so resuming after the match is equivalent to resuming at the
character following the match's start, which is how the scanners below
recurse); `\d` is modelled as an ASCII digit.
-/

namespace TagReader

/-- Numeric value of a string of decimal digits, as Python's `int()`. -/
def natOfDigits (ds : List Char) : Nat :=
  ds.foldl (fun a c => a * 10 + (c.toNat - 48)) 0

/-! ## `extract_index` (tag_reader.py lines 46-55) -/

/-- Embeds `re.sub(r'^Program:[^.]+\.', '', tag)`: if the string starts with
`Program:` followed by at least one non-dot character and then a dot, strip
through that dot; otherwise return the string unchanged. -/
def stripProgram (s : List Char) : List Char :=
  if s.take 8 = "Program:".data then
    let r := s.drop 8
    let a := r.takeWhile (fun c => c != '.')
    if a ≠ [] ∧ a.length < r.length then r.drop (a.length + 1) else s
  else s

/-- One candidate match of `\[(\d+)\]` starting just after a `[`: a maximal
(greedy) nonempty run of digits followed by `]`. -/
def groupAt (rest : List Char) : Option Nat :=
  let ds := rest.takeWhile Char.isDigit
  let tl := rest.drop ds.length
  if tl.head? = some ']' ∧ ds ≠ [] then some (natOfDigits ds) else none

/-- One candidate match of `\[(\d+)\](?=[^.]*$)`: as `groupAt`, but the
lookahead additionally requires that no `.` occurs after the closing `]`
(`[^.]*$` can reach the end of the string, or the position before a terminal
newline, exactly when the remainder contains no dot). -/
def groupAtLA (rest : List Char) : Option Nat :=
  let ds := rest.takeWhile Char.isDigit
  let tl := rest.drop ds.length
  if tl.head? = some ']' ∧ ds ≠ [] ∧ '.' ∉ tl.tail then some (natOfDigits ds) else none

/-- All matches of `re.findall(r'\[(\d+)\]', s)`, in order. -/
def findIntGroups : List Char → List Nat
  | [] => []
  | c :: rest =>
    if c = '[' then
      match groupAt rest with
      | some n => n :: findIntGroups rest
      | none => findIntGroups rest
    else findIntGroups rest

/-- All matches of `re.findall(r'\[(\d+)\](?=[^.]*$)', s)`, in order. -/
def findIntGroupsLA : List Char → List Nat
  | [] => []
  | c :: rest =>
    if c = '[' then
      match groupAtLA rest with
      | some n => n :: findIntGroupsLA rest
      | none => findIntGroupsLA rest
    else findIntGroupsLA rest

/-- Embeds `extract_index` (tag_reader.py lines 46-55): strip a leading
`Program:<name>.` qualifier, take the first dot-segment, find all bracketed
integer groups there (with the `(?=[^.]*$)` lookahead), and return the sum of
the first two if there are at least two, the single one if there is exactly
one, and `none` (Python `None`) otherwise. -/
def extract_index (tag : String) : Option Nat :=
  let t := stripProgram tag.data
  let seg := t.takeWhile (fun c => c != '.')
  match findIntGroupsLA seg with
  | a :: b :: _ => some (a + b)
  | [a] => some a
  | [] => none

/-! ## `extract_child_names` (tag_reader.py lines 57-64) -/

/-- Embeds `re.search(r'\]\.(.+)', tag)`: find the leftmost position where
`].` is followed by at least one non-newline character, and return the greedy
`.+` group (everything from there up to a newline or the end). -/
def searchBracketDot : List Char → Option (List Char)
  | [] => none
  | x :: rest =>
    match x, rest with
    | ']', '.' :: c :: tail2 =>
      if c = '\n' then searchBracketDot rest
      else some ((c :: tail2).takeWhile (fun d => d != '\n'))
    | _, _ => searchBracketDot rest

/-- Embeds `extract_child_names` (tag_reader.py lines 57-64).  The fallback
branch embeds `re.search(r'^(.*?)(?=\[)', tag).group(1)`: the lazy `.*?` is
anchored at the start and cannot cross a newline, so the search succeeds
exactly when a `[` occurs in the non-newline prefix, returning the characters
before the first `[`; when it fails, Python calls `.group(1)` on `None` and
raises `AttributeError`, modelled as `Except.error "AttributeError"`. -/
def extract_child_names (tag : String) : Except String String :=
  match searchBracketDot tag.data with
  | some g => Except.ok (String.mk g)
  | none =>
    let p := tag.data.takeWhile (fun c => c != '\n')
    if p.contains '[' then Except.ok (String.mk (p.takeWhile (fun c => c != '[')))
    else Except.error "AttributeError"

/-- Everything after the first occurrence of the substring `].`
(`none` when there is no such occurrence).  This follows the claim's words
and is compared against the source embedding `extract_child_names`. -/
def afterFirstBracketDot : List Char → Option (List Char)
  | [] => none
  | x :: rest =>
    match x, rest with
    | ']', '.' :: tail2 => some tail2
    | _, _ => afterFirstBracketDot rest

/-- Child-name extraction as described by the amended claim: everything after
the first `].` when at least one character follows it; otherwise the part
before the first `[` when the tag has one; otherwise the extraction fails. -/
def childNameSpec (tag : String) : Except String String :=
  match afterFirstBracketDot tag.data with
  | some (c :: cs) => Except.ok (String.mk (c :: cs))
  | _ =>
    if tag.data.contains '[' then
      Except.ok (String.mk (tag.data.takeWhile (fun c => c != '[')))
    else Except.error "AttributeError"

/-! ## `flatten_dict` (tag_reader.py lines 104-120) -/

/-- A Python value as returned by the PLC read collaborator: a scalar
(integer or string), a list, or a dict (modelled as an insertion-ordered
association list, as Python 3.7+ dicts are). -/
inductive Val where
  | int : Int → Val
  | str : String → Val
  | list : List Val → Val
  | dict : List (String × Val) → Val

/-- Building block of `dictOfPairs`: Python dict insertion.  If the key is
already present, its value is replaced in place (the key keeps its original
position); otherwise the pair is appended. -/
def insertPair (acc : List (String × Val)) (p : String × Val) : List (String × Val) :=
  match acc with
  | [] => [p]
  | q :: rest => if q.1 = p.1 then (q.1, p.2) :: rest else q :: insertPair rest p

/-- Embeds Python's `dict(items)` constructor applied to a list of key-value
pairs: later pairs with a duplicate key overwrite the earlier value, and each
key keeps the position of its first occurrence. -/
def dictOfPairs (ps : List (String × Val)) : List (String × Val) :=
  ps.foldl insertPair []

mutual

/-- Embeds the `items` accumulation loop of `flatten_dict` (lines 105-118):
one pass over the dict's entries in insertion order. -/
def flattenRaw : List (String × Val) → String → List (String × Val)
  | [], _ => []
  | (k, v) :: rest, pk =>
    let nk := if pk = "" then k else pk ++ "." ++ k
    flattenOne v nk ++ flattenRaw rest pk

/-- The per-value branch of the loop body: a dict value recurses through
`flatten_dict` (whose `.items()` are spliced in), a list value is iterated
with `[i]`-joined keys, and anything else is emitted as a single entry. -/
def flattenOne : Val → String → List (String × Val)
  | Val.dict sub, nk => dictOfPairs (flattenRaw sub nk)
  | Val.list l, nk => flattenL l nk 0
  | x, nk => [(nk, x)]

/-- The `for i, item in enumerate(v)` loop (lines 111-116): a dict element
recurses through `flatten_dict`; any other element — including a nested
list — is appended as a leaf. -/
def flattenL : List Val → String → Nat → List (String × Val)
  | [], _, _ => []
  | item :: rest, nk, i =>
    (match item with
     | Val.dict sub => dictOfPairs (flattenRaw sub (nk ++ "[" ++ Nat.repr i ++ "]"))
     | x => [(nk ++ "[" ++ Nat.repr i ++ "]", x)]) ++ flattenL rest nk (i + 1)

end

/-- Embeds `flatten_dict(d)` (lines 104-120) at the default `parent_key=''`:
the accumulated items are converted back to a dict by `return dict(items)`. -/
def flatten_dict (d : List (String × Val)) : List (String × Val) :=
  dictOfPairs (flattenRaw d "")

/-- Embeds the row loop of `write_to_csv` (lines 142-143): the raw CSV holds
exactly one `(tag, value)` data row per entry of the flattened dict, in
order. -/
def raw_rows (data : List (String × Val)) : List (String × Val) :=
  data

/-! ## The pivot engine of `format_csv` (tag_reader.py lines 72-81) -/

/-- Python string comparison: lexicographic by code point. -/
def lexLt : List Char → List Char → Bool
  | [], [] => false
  | [], _ :: _ => true
  | _ :: _, [] => false
  | a :: as, b :: bs => if a = b then lexLt as bs else decide (a.toNat < b.toNat)

/-- Insert into a sorted duplicate-free list, keeping it sorted and
duplicate-free with respect to the strict order `lt`. -/
def insDedupBy {α : Type} [DecidableEq α] (lt : α → α → Bool) (a : α) : List α → List α
  | [] => [a]
  | m :: rest =>
    if a = m then m :: rest
    else if lt a m then a :: m :: rest
    else m :: insDedupBy lt a rest

/-- The sorted list of distinct elements of `l` (how pandas `pivot_table`
orders the distinct grouping keys of the index and of the columns). -/
def sortDedupBy {α : Type} [DecidableEq α] (lt : α → α → Bool) (l : List α) : List α :=
  l.foldr (insDedupBy lt) []

/-- Embeds lines 73-74 of `format_csv`: annotate every raw row with
`extract_index` and `extract_child_names` of its `tag` field.  An exception
raised by `extract_child_names` aborts the whole `.apply` (and is caught by
the surrounding `try/except`). -/
def pivotInfos : List (String × String) → Except String (List (Option Nat × String × String))
  | [] => Except.ok []
  | r :: rest =>
    match extract_child_names r.1 with
    | Except.error e => Except.error e
    | Except.ok c =>
      match pivotInfos rest with
      | Except.error e => Except.error e
      | Except.ok l => Except.ok ((extract_index r.1, c, r.2) :: l)

/-- The rows that take part in the pivot: `pivot_table` drops every row whose
`index` grouping key is NaN (i.e. whose `extract_index` was `None`). -/
def definedOf (infos : List (Option Nat × String × String)) : List (Nat × String × String) :=
  infos.filterMap (fun t => t.1.map (fun i => (i, t.2.1, t.2.2)))

/-- The pivot table's row keys: distinct defined indices, ascending. -/
def pivotIdxs (infos : List (Option Nat × String × String)) : List Nat :=
  sortDedupBy (fun a b => decide (a < b)) ((definedOf infos).map (fun t => t.1))

/-- The pivot table's column keys: distinct child names, sorted. -/
def pivotCols (infos : List (Option Nat × String × String)) : List String :=
  sortDedupBy (fun a b => lexLt a.data b.data) ((definedOf infos).map (fun t => t.2.1))

/-- The cell for `(index, child_name)`: `aggfunc='first'` keeps the first
observed value; a missing cell is NaN, written by `to_csv` as `""`. -/
def cellOf (infos : List (Option Nat × String × String)) (i : Nat) (c : String) : String :=
  match (definedOf infos).filter (fun t => t.1 == i && t.2.1 == c) with
  | [] => ""
  | t :: _ => t.2.2

/-- Embeds the `is_array` branch of `format_csv` (lines 72-78) followed by
`to_csv(index=False)`: header `index` plus the sorted distinct child names,
one row per distinct defined index in ascending order. -/
def pivotArrayE (rows : List (String × String)) :
    Except String (List String × List (List String)) :=
  match pivotInfos rows with
  | Except.error e => Except.error e
  | Except.ok infos =>
    Except.ok ("index" :: pivotCols infos,
      (pivotIdxs infos).map (fun i => Nat.repr i :: (pivotCols infos).map (fun c => cellOf infos i c)))

/-- Embeds the scalar branch of `format_csv` (lines 80-81),
`df.set_index('tag').T`, followed by `to_csv(index=False)`: the header is the
`tag` column in row order and the single data row holds the `value`s. -/
def pivotScalar (rows : List (String × String)) : List String × List (List String) :=
  (rows.map Prod.fst, [rows.map Prod.snd])

/-! ## Collision-free naming and control flow of `format_csv` (lines 66-101) -/

/-- The candidate file name with revision suffix `n`, as `f'{og_file}_{rev_num}'`. -/
def mkRevName (og : String) (n : Nat) : String :=
  og ++ "_" ++ Nat.repr n

/-- The file name denoted by revision `k`: revision `0` is the unsuffixed
name, revision `k ≥ 1` carries the `_k` suffix. -/
def nameOfRev (og : String) : Nat → String
  | 0 => og
  | Nat.succ k => mkRevName og (k + 1)

/-- Embeds the `while os.path.exists(...): rev_num += 1` loop of lines 86-87.
The Python loop is unbounded; here it runs on explicit fuel, which the
theorems require to be large enough to contain a free slot (true whenever the
directory holds finitely many files). -/
def findRevNum (ex : String → Bool) (og : String) : Nat → Nat → Nat
  | 0, n => n
  | Nat.succ fuel, n => if ex (mkRevName og n ++ ".csv") then findRevNum ex og fuel (n + 1) else n

/-- Embeds lines 83-89 of `format_csv`: keep the unsuffixed name when it is
free, otherwise scan `_1`, `_2`, … for the first free suffix.  `ex` is the
filesystem existence collaborator (`os.path.exists`). -/
def reserveName (ex : String → Bool) (og : String) (fuel : Nat) : String :=
  if ex (og ++ ".csv") then mkRevName og (findRevNum ex og fuel 1) else og

/-- `reserveName` against a directory listing, with fuel that always suffices
for a finite listing (the loop can be stopped by at most `fs.length` occupied
candidates). -/
def reserveNameFS (fs : List String) (og : String) : String :=
  reserveName (fun s => fs.contains s) og (fs.length + 1)

/-- Embeds the whole of `format_csv` (lines 66-101) as a function of the
raw-file read outcome (`raw`), the requested final name (`og_file`), the raw
file's name (`file`), the two flags, and the directory state `fs` (the list
of existing `.csv` file names).  Returns the Python function's boolean result
together with the new directory state.  Any raised exception — unreadable or
malformed raw file, or an `AttributeError` escaping `extract_child_names`
during the array pivot — is caught by the `try/except` and yields `false`. -/
def format_csv (raw : Except String (List (String × String))) (og_file file : String)
    (include_raw is_array : Bool) (fs : List String) : Bool × List String :=
  match raw with
  | Except.error _ => (false, fs)
  | Except.ok rows =>
    match (if is_array then pivotArrayE rows else Except.ok (pivotScalar rows)) with
    | Except.error _ => (false, fs)
    | Except.ok _ =>
      let og := reserveNameFS fs og_file
      let fs1 := if fs.contains (og ++ ".csv") then fs else (og ++ ".csv") :: fs
      if include_raw then (true, fs1)
      else if fs1.contains (file ++ ".csv") then (true, fs1.erase (file ++ ".csv"))
      else (false, fs1)

/-- Whether a Python call completed without raising. -/
def isOkE (e : Except String String) : Bool :=
  match e with
  | Except.ok _ => true
  | Except.error _ => false

/-- Whether a value is a Python dict. -/
def isDictV : Val → Bool
  | Val.dict _ => true
  | _ => false

/-- Whether a value is a scalar (neither a list nor a dict). -/
def isScalarV : Val → Bool
  | Val.list _ => false
  | Val.dict _ => false
  | _ => true

/-! ## Lemmas about the regex scanners -/

theorem takeWhile_ne_of_not_mem (ch : Char) (l : List Char) (h : ch ∉ l) :
    l.takeWhile (fun d => d != ch) = l := by
  induction l with
  | nil => rfl
  | cons a t ih =>
    simp only [List.mem_cons, not_or] at h
    simp [List.takeWhile_cons, bne_iff_ne, Ne.symm h.1, ih h.2]

theorem not_mem_takeWhile_ne (ch : Char) (l : List Char) :
    ch ∉ l.takeWhile (fun d => d != ch) := by
  intro hmem
  have := List.takeWhile_subset (l := l) (p := fun d => d != ch) hmem
  have h2 := List.mem_takeWhile_imp hmem
  simp at h2

theorem searchBracketDot_eq_afterFirst (l : List Char) (h : '\n' ∉ l) :
    searchBracketDot l =
      match afterFirstBracketDot l with
      | some (c :: cs) => some (c :: cs)
      | _ => none := by
  induction l with
  | nil => rfl
  | cons x rest ih =>
    have hrest : '\n' ∉ rest := fun hm => h (List.mem_cons_of_mem x hm)
    have hIH := ih hrest
    by_cases hx : x = ']'
    · subst hx
      cases rest with
      | nil => rfl
      | cons y ys =>
        by_cases hy : y = '.'
        · subst hy
          cases ys with
          | nil => rfl
          | cons c tail2 =>
            have hc : c ≠ '\n' := fun he => hrest (by simp [he])
            have hnl : '\n' ∉ c :: tail2 := fun hm => hrest (List.mem_cons_of_mem _ hm)
            simp [searchBracketDot, afterFirstBracketDot, hc,
              takeWhile_ne_of_not_mem '\n' _ hnl]
        · have hL : searchBracketDot (']' :: y :: ys) = searchBracketDot (y :: ys) := by
            cases ys <;> simp [searchBracketDot, hy]
          have hR : afterFirstBracketDot (']' :: y :: ys) = afterFirstBracketDot (y :: ys) := by
            cases ys <;> simp [afterFirstBracketDot, hy]
          rw [hL, hR]; exact hIH
    · have hL : searchBracketDot (x :: rest) = searchBracketDot rest := by
        cases rest with
        | nil => simp [searchBracketDot]
        | cons y ys => cases ys <;> simp [searchBracketDot, hx]
      have hR : afterFirstBracketDot (x :: rest) = afterFirstBracketDot rest := by
        cases rest with
        | nil => simp [afterFirstBracketDot]
        | cons y ys => cases ys <;> simp [afterFirstBracketDot, hx]
      rw [hL, hR]; exact hIH

theorem groupAtLA_eq_groupAt (rest : List Char) (h : '.' ∉ rest) :
    groupAtLA rest = groupAt rest := by
  unfold groupAtLA groupAt
  have hnot : '.' ∉ (rest.drop (rest.takeWhile Char.isDigit).length).tail := by
    intro hm
    exact h (List.drop_subset _ rest (List.tail_subset _ hm))
  by_cases h1 : (rest.drop (rest.takeWhile Char.isDigit).length).head? = some ']' ∧
      rest.takeWhile Char.isDigit ≠ []
  · rw [if_pos ⟨h1.1, h1.2, hnot⟩, if_pos h1]
  · rw [if_neg (fun hand => h1 ⟨hand.1, hand.2.1⟩), if_neg h1]

theorem findIntGroupsLA_eq (l : List Char) (h : '.' ∉ l) :
    findIntGroupsLA l = findIntGroups l := by
  induction l with
  | nil => rfl
  | cons c rest ih =>
    have hrest : '.' ∉ rest := fun hm => h (List.mem_cons_of_mem _ hm)
    by_cases hc : c = '['
    · subst hc
      simp only [findIntGroupsLA, findIntGroups, if_pos rfl,
        groupAtLA_eq_groupAt rest hrest]
      cases groupAt rest <;> simp [ih hrest]
    · simp [findIntGroupsLA, findIntGroups, hc, ih hrest]

/-! ## Claim C1 -/

/-- C1 — counterexample to the claim as stated.  The claim says the child
name of a tag containing `].` is everything after the LAST occurrence; for
`"a[0].b[1].c"` that would be `"c"`, but `re.search` finds the leftmost
match, so the code returns everything after the FIRST occurrence,
`"b[1].c"`. -/
theorem C1_counterexample :
    extract_child_names "a[0].b[1].c" = Except.ok "b[1].c" ∧ "b[1].c" ≠ "c" :=
  ⟨rfl, by decide⟩

/-- C1 (amended) — for every newline-free tag string, child-name extraction
behaves as `childNameSpec`: everything after the FIRST occurrence of `].`
when at least one character follows it; otherwise the substring before the
first `[` when the tag contains `[`; otherwise the call raises. -/
theorem C1_child_name_after_first_bracket_dot (tag : String) (h : '\n' ∉ tag.data) :
    extract_child_names tag = childNameSpec tag := by
  unfold extract_child_names childNameSpec
  rw [searchBracketDot_eq_afterFirst _ h]
  cases hA : afterFirstBracketDot tag.data with
  | none => simp [takeWhile_ne_of_not_mem '\n' _ h]
  | some g => cases g <;> simp [takeWhile_ne_of_not_mem '\n' _ h]

/-- C1 — witness: the amended rule evaluated at `"a[0].b[1].c"`. -/
theorem C1_witness :
    extract_child_names "a[0].b[1].c" = childNameSpec "a[0].b[1].c" :=
  C1_child_name_after_first_bracket_dot "a[0].b[1].c" (by decide)

/-! ## Claim C2 -/

/-- C2 — counterexample to the claim as stated.  The claim says degenerate,
bracket-free tags yield an absent child name rather than failing, and the
spec's own example says `"scalar_tag"` maps to child name `scalar_tag`; in
the code `re.search(r'^(.*?)(?=\[)', "scalar_tag")` returns `None`, so
`.group(1)` raises an uncaught `AttributeError` inside
`extract_child_names`.  (`extract_index` does return an absent index.) -/
theorem C2_counterexample :
    extract_child_names "scalar_tag" = Except.error "AttributeError" ∧
      extract_index "scalar_tag" = none :=
  ⟨rfl, rfl⟩

/-- C2 (amended) — `extract_index` is total (it is a plain function into
`Option Nat`: `re.sub`, `split`, `findall` and `int` on digit strings cannot
raise), and `extract_child_names` completes without raising for every tag
string that contains a `[` before any newline — in particular for every
malformed bracketed tag — but a tag with neither a `].`-match nor a `[`,
such as the plain name `"scalar_tag"`, raises an `AttributeError` that only
`format_csv`'s blanket `try/except` catches. -/
theorem C2_parsing_totality (tag : String)
    (h : (tag.data.takeWhile (fun c => c != '\n')).contains '[' = true) :
    isOkE (extract_child_names tag) = true ∧
      extract_child_names "scalar_tag" = Except.error "AttributeError" ∧
      extract_index "scalar_tag" = none := by
  refine ⟨?_, rfl, rfl⟩
  unfold extract_child_names
  cases hs : searchBracketDot tag.data with
  | some g => rfl
  | none =>
    have hmem : '[' ∈ tag.data.takeWhile (fun c => c != '\n') := by simpa using h
    simp [isOkE, hmem]

/-- C2 — witness: the no-raise guarantee evaluated at the malformed tag
`"a["`. -/
theorem C2_witness :
    isOkE (extract_child_names "a[") = true ∧
      extract_child_names "scalar_tag" = Except.error "AttributeError" ∧
      extract_index "scalar_tag" = none :=
  C2_parsing_totality "a[" (by decide)

/-! ## Claim C3 -/

/-- C3 — index extraction strips a leading `Program:<name>.` qualifier, then
collects the bracketed integer groups of the first dot-segment (the
`(?=[^.]*$)` lookahead is vacuous there, since the first dot-segment contains
no dot): two or more groups give the sum of the first two, one group gives
that value, and no groups give an absent index.  The spec's read-range
example `"my_array[2][3]"` yields `2 + 3 = 5`. -/
theorem C3_index_extraction :
    (∀ tag : String, extract_index tag =
      match findIntGroups ((stripProgram tag.data).takeWhile (fun c => c != '.')) with
      | a :: b :: _ => some (a + b)
      | [a] => some a
      | [] => none)
    ∧ extract_index "my_array[2][3]" = some 5
    ∧ extract_index "Program:my_program.my_array[4].member" = some 4
    ∧ extract_index "my_array[4]{50}" = some 4 := by
  refine ⟨fun tag => ?_, rfl, rfl, rfl⟩
  show (match findIntGroupsLA ((stripProgram tag.data).takeWhile (fun c => c != '.')) with
      | a :: b :: _ => some (a + b)
      | [a] => some a
      | [] => none) = _
  rw [findIntGroupsLA_eq _ (not_mem_takeWhile_ne '.' _)]

/-! ## Lemmas about the dict model and `flatten_dict` -/

theorem mem_insertPair (acc : List (String × Val)) (q p : String × Val)
    (h : p ∈ insertPair acc q) : p ∈ acc ∨ p = q := by
  induction acc with
  | nil => simpa [insertPair] using h
  | cons r rest ih =>
    by_cases hr : r.1 = q.1
    · rw [show insertPair (r :: rest) q = (r.1, q.2) :: rest by simp [insertPair, hr]] at h
      rcases List.mem_cons.mp h with h | h
      · right; rw [h, hr]
      · left; exact List.mem_cons_of_mem _ h
    · rw [show insertPair (r :: rest) q = r :: insertPair rest q by simp [insertPair, hr]] at h
      rcases List.mem_cons.mp h with h | h
      · left; simp [h]
      · rcases ih h with h' | h'
        · left; exact List.mem_cons_of_mem _ h'
        · right; exact h'

theorem mem_foldl_insertPair (ps : List (String × Val)) :
    ∀ acc p, p ∈ ps.foldl insertPair acc → p ∈ acc ∨ p ∈ ps := by
  induction ps with
  | nil => intro acc p h; exact Or.inl h
  | cons q rest ih =>
    intro acc p h
    rcases ih (insertPair acc q) p h with h' | h'
    · rcases mem_insertPair acc q p h' with h'' | h''
      · exact Or.inl h''
      · exact Or.inr (by simp [h''])
    · exact Or.inr (List.mem_cons_of_mem _ h')

theorem mem_dictOfPairs (ps : List (String × Val)) (p : String × Val)
    (h : p ∈ dictOfPairs ps) : p ∈ ps := by
  rcases mem_foldl_insertPair ps [] p h with h' | h'
  · simp at h'
  · exact h'

theorem keys_insertPair (acc : List (String × Val)) (p : String × Val) :
    (insertPair acc p).map Prod.fst =
      if p.1 ∈ acc.map Prod.fst then acc.map Prod.fst
      else acc.map Prod.fst ++ [p.1] := by
  induction acc with
  | nil => simp [insertPair]
  | cons q rest ih =>
    by_cases hq : q.1 = p.1
    · rw [show insertPair (q :: rest) p = (q.1, p.2) :: rest by simp [insertPair, hq]]
      simp [hq]
    · rw [show insertPair (q :: rest) p = q :: insertPair rest p by simp [insertPair, hq]]
      rw [List.map_cons, ih]
      by_cases hm : p.1 ∈ rest.map Prod.fst
      · rw [if_pos hm, if_pos (by simp [hm]), List.map_cons]
      · rw [if_neg hm, if_neg (by
          simp only [List.map_cons, List.mem_cons, not_or]
          exact ⟨fun he => hq he.symm, hm⟩), List.map_cons, List.cons_append]

theorem nodup_keys_insertPair (acc : List (String × Val)) (p : String × Val)
    (h : (acc.map Prod.fst).Nodup) : ((insertPair acc p).map Prod.fst).Nodup := by
  rw [keys_insertPair]
  by_cases hm : p.1 ∈ acc.map Prod.fst
  · rwa [if_pos hm]
  · rw [if_neg hm]
    simp [List.nodup_append, h, hm]

theorem nodup_keys_foldl_insertPair (ps : List (String × Val)) :
    ∀ acc, (acc.map Prod.fst).Nodup → ((ps.foldl insertPair acc).map Prod.fst).Nodup := by
  induction ps with
  | nil => intro acc h; exact h
  | cons q rest ih => intro acc h; exact ih _ (nodup_keys_insertPair acc q h)

theorem nodup_keys_dictOfPairs (ps : List (String × Val)) :
    ((dictOfPairs ps).map Prod.fst).Nodup :=
  nodup_keys_foldl_insertPair ps [] (by simp)

theorem noDict_flatten_aux : ∀ n : Nat,
    (∀ e pk p, sizeOf e ≤ n → p ∈ flattenRaw e pk → isDictV p.2 = false) ∧
    (∀ v nk p, sizeOf v ≤ n → p ∈ flattenOne v nk → isDictV p.2 = false) ∧
    (∀ l nk i p, sizeOf l ≤ n → p ∈ flattenL l nk i → isDictV p.2 = false) := by
  intro n
  induction n with
  | zero =>
    refine ⟨?_, ?_, ?_⟩
    · intro e pk p hs _
      cases e with
      | nil => simp at hs
      | cons q rest => simp at hs
    · intro v nk p hs _
      cases v <;> simp at hs
    · intro l nk i p hs _
      cases l with
      | nil => simp at hs
      | cons q rest => simp at hs
  | succ n ih =>
    refine ⟨?_, ?_, ?_⟩
    · intro e pk p hs hp
      cases e with
      | nil => simp [flattenRaw] at hp
      | cons q rest =>
        cases q with
        | mk k v =>
          rw [flattenRaw] at hp
          rcases List.mem_append.mp hp with h' | h'
          · have hv : sizeOf v ≤ n := by simp at hs; omega
            exact ih.2.1 v _ p hv h'
          · have hr : sizeOf rest ≤ n := by simp at hs; omega
            exact ih.1 rest pk p hr h'
    · intro v nk p hs hp
      cases v with
      | int i =>
        simp [flattenOne] at hp
        simp [hp, isDictV]
      | str s =>
        simp [flattenOne] at hp
        simp [hp, isDictV]
      | list l =>
        simp only [flattenOne] at hp
        have hl : sizeOf l ≤ n := by simp at hs; omega
        exact ih.2.2 l nk 0 p hl hp
      | dict sub =>
        simp only [flattenOne] at hp
        have hsub : sizeOf sub ≤ n := by simp at hs; omega
        exact ih.1 sub nk p hsub (mem_dictOfPairs _ p hp)
    · intro l nk i p hs hp
      cases l with
      | nil => simp [flattenL] at hp
      | cons item rest =>
        have hr : sizeOf rest ≤ n := by simp at hs; omega
        cases item with
        | int j =>
          simp [flattenL] at hp
          rcases hp with h' | h'
          · simp [h', isDictV]
          · exact ih.2.2 rest nk (i + 1) p hr h'
        | str s =>
          simp [flattenL] at hp
          rcases hp with h' | h'
          · simp [h', isDictV]
          · exact ih.2.2 rest nk (i + 1) p hr h'
        | list l2 =>
          simp [flattenL] at hp
          rcases hp with h' | h'
          · simp [h', isDictV]
          · exact ih.2.2 rest nk (i + 1) p hr h'
        | dict sub =>
          have hsub : sizeOf sub ≤ n := by simp at hs; omega
          simp only [flattenL] at hp
          rcases List.mem_append.mp hp with h' | h'
          · exact ih.1 sub _ p hsub (mem_dictOfPairs _ p h')
          · exact ih.2.2 rest nk (i + 1) p hr h'

theorem noDict_flatten (d : List (String × Val)) (pk : String) (p : String × Val)
    (h : p ∈ flattenRaw d pk) : isDictV p.2 = false :=
  (noDict_flatten_aux (sizeOf d)).1 d pk p le_rfl h

/-! ## Claim C4 -/

/-- C4 — counterexample to the claim as stated.  The claim says flattening
recurses per element of every sequence, so that the output holds only scalar
leaves; but `flatten_dict` only recurses into a list element when it is a
dict, so a list nested directly inside a list is emitted whole as a
(non-scalar) leaf value. -/
theorem C4_counterexample :
    flatten_dict [("a", Val.list [Val.list [Val.int 1]])] =
      [("a[0]", Val.list [Val.int 1])] ∧
      isScalarV (Val.list [Val.int 1]) = false := by
  constructor
  · simp only [flatten_dict, flattenRaw, flattenOne, flattenL]; rfl
  · rfl

/-- C4 (amended) — flattening recurses into every nested mapping and into
every list element that is a mapping, so no mapping value ever survives to
the output; but a list element that is itself a list (or any other
non-mapping element) is emitted as a single `[index]`-keyed leaf without
further flattening.  Nesting through mappings and lists-of-mappings is
flattened to arbitrary depth, as in the second conjunct's example. -/
theorem C4_flatten_leaves (d : List (String × Val)) (p : String × Val)
    (h : p ∈ flatten_dict d) :
    isDictV p.2 = false ∧
      flatten_dict [("a", Val.list [Val.dict [("b", Val.list [Val.dict [("c", Val.int 1)]])]])] =
        [("a[0].b[0].c", Val.int 1)] := by
  refine ⟨noDict_flatten d "" p (mem_dictOfPairs _ p h), ?_⟩
  simp only [flatten_dict, flattenRaw, flattenOne, flattenL]; rfl

/-- C4 — witness: the no-mapping-leaf guarantee evaluated at a concrete
flattened entry. -/
theorem C4_witness :
    isDictV (Val.int 0) = false ∧
      flatten_dict [("a", Val.list [Val.dict [("b", Val.list [Val.dict [("c", Val.int 1)]])]])] =
        [("a[0].b[0].c", Val.int 1)] :=
  C4_flatten_leaves [("x", Val.int 0)] ("x", Val.int 0)
    (by rw [show flatten_dict [("x", Val.int 0)] = [("x", Val.int 0)] by
          simp only [flatten_dict, flattenRaw, flattenOne]; rfl]
        simp)

/-! ## Claim C7 -/

/-- C7 — flattening preserves traversal order: the flattened entries of the
spec's example come out exactly in traversal order, and on every level the
entry list of a concatenation is the concatenation of the entry lists (the
mapping keys joined with `.`, positions with `[i]`). -/
theorem C7_flatten_order :
    flatten_dict [("a", Val.dict [("b", Val.int 1), ("c", Val.list [Val.int 2, Val.int 3])])] =
      [("a.b", Val.int 1), ("a.c[0]", Val.int 2), ("a.c[1]", Val.int 3)] ∧
    ∀ (e1 e2 : List (String × Val)) (pk : String),
      flattenRaw (e1 ++ e2) pk = flattenRaw e1 pk ++ flattenRaw e2 pk := by
  constructor
  · simp only [flatten_dict, flattenRaw, flattenOne, flattenL]; rfl
  · intro e1 e2 pk
    induction e1 with
    | nil => simp [flattenRaw]
    | cons q rest ih =>
      cases q with
      | mk k v => rw [List.cons_append, flattenRaw, flattenRaw, ih, List.append_assoc]

/-! ## Claim C10 -/

/-- C10 — the flattened output is a dict, so its keys are unique and the raw
CSV holds at most one data row per tag key; when two distinct paths collide
on the same flattened key, the later entry silently overwrites the earlier
one (second conjunct: a literal key `"a.b"` loses to the nested
`{"a": {"b": 2}}`). -/
theorem C10_unique_keys :
    (∀ d : List (String × Val), ((raw_rows (flatten_dict d)).map Prod.fst).Nodup) ∧
      flatten_dict [("a.b", Val.int 1), ("a", Val.dict [("b", Val.int 2)])] =
        [("a.b", Val.int 2)] := by
  refine ⟨fun d => nodup_keys_dictOfPairs _, ?_⟩
  simp only [flatten_dict, flattenRaw, flattenOne]; rfl

/-! ## Claim C8 -/

/-- C8 — the scalar pivot of the rows written from a flattened dict has
exactly one data row; its columns are the raw rows' `tag` values in
first-seen order — which are exactly the flattened keys, pairwise distinct —
and the single data row holds the corresponding `value` cells in the same
order. -/
theorem C8_scalar_pivot (d : List (String × Val)) (render : Val → String) :
    (pivotScalar ((raw_rows (flatten_dict d)).map (fun p => (p.1, render p.2)))).2.length = 1 ∧
    (pivotScalar ((raw_rows (flatten_dict d)).map (fun p => (p.1, render p.2)))).1 =
      (flatten_dict d).map Prod.fst ∧
    ((pivotScalar ((raw_rows (flatten_dict d)).map (fun p => (p.1, render p.2)))).1).Nodup ∧
    (pivotScalar ((raw_rows (flatten_dict d)).map (fun p => (p.1, render p.2)))).2 =
      [(flatten_dict d).map (fun p => render p.2)] := by
  refine ⟨rfl, ?_, ?_, ?_⟩
  · simp [pivotScalar, raw_rows]
  · have h := nodup_keys_dictOfPairs (flattenRaw d "")
    simpa [pivotScalar, raw_rows] using h
  · simp [pivotScalar, raw_rows]

/-! ## Lemmas about `lexLt` and sorted deduplication -/

theorem char_eq_of_toNat_eq (a b : Char) (h : a.toNat = b.toNat) : a = b :=
  Char.eq_of_val_eq (UInt32.eq_of_toBitVec_eq (BitVec.eq_of_toNat_eq h))

theorem lexLt_trans : ∀ as bs cs : List Char,
    lexLt as bs = true → lexLt bs cs = true → lexLt as cs = true := by
  intro as
  induction as with
  | nil =>
    intro bs cs h1 h2
    cases bs with
    | nil => simp [lexLt] at h1
    | cons b bs' =>
      cases cs with
      | nil => simp [lexLt] at h2
      | cons c cs' => simp [lexLt]
  | cons a as' ih =>
    intro bs cs h1 h2
    cases bs with
    | nil => simp [lexLt] at h1
    | cons b bs' =>
      cases cs with
      | nil => simp [lexLt] at h2
      | cons c cs' =>
        simp only [lexLt] at h1 h2 ⊢
        by_cases hab : a = b
        · subst hab
          rw [if_pos rfl] at h1
          by_cases hac : a = c
          · subst hac
            rw [if_pos rfl] at h2 ⊢
            exact ih bs' cs' h1 h2
          · rw [if_neg hac] at h2 ⊢
            exact h2
        · rw [if_neg hab] at h1
          have h1' : a.toNat < b.toNat := of_decide_eq_true h1
          by_cases hbc : b = c
          · subst hbc
            rw [if_neg hab]
            exact h1
          · rw [if_neg hbc] at h2
            have h2' : b.toNat < c.toNat := of_decide_eq_true h2
            have hac : ¬a = c := by
              intro he; subst he; omega
            rw [if_neg hac]
            exact decide_eq_true (by omega)

theorem lexLt_total : ∀ as bs : List Char,
    as = bs ∨ lexLt as bs = true ∨ lexLt bs as = true := by
  intro as
  induction as with
  | nil =>
    intro bs
    cases bs with
    | nil => exact Or.inl rfl
    | cons b bs' => exact Or.inr (Or.inl (by simp [lexLt]))
  | cons a as' ih =>
    intro bs
    cases bs with
    | nil => exact Or.inr (Or.inr (by simp [lexLt]))
    | cons b bs' =>
      by_cases hab : a = b
      · subst hab
        rcases ih bs' with h | h | h
        · exact Or.inl (by rw [h])
        · exact Or.inr (Or.inl (by simp [lexLt, h]))
        · exact Or.inr (Or.inr (by simp [lexLt, h]))
      · have hba : ¬b = a := fun he => hab he.symm
        rcases Nat.lt_trichotomy a.toNat b.toNat with h | h | h
        · exact Or.inr (Or.inl (by simp [lexLt, hab, h]))
        · exact absurd (char_eq_of_toNat_eq a b h) hab
        · exact Or.inr (Or.inr (by simp [lexLt, hba, h]))

theorem mem_insDedupBy {α : Type} [DecidableEq α] (lt : α → α → Bool) (a x : α) :
    ∀ l : List α, x ∈ insDedupBy lt a l → x = a ∨ x ∈ l := by
  intro l
  induction l with
  | nil => intro h; simpa [insDedupBy] using h
  | cons m rest ih =>
    intro h
    by_cases ham : a = m
    · rw [show insDedupBy lt a (m :: rest) = m :: rest by simp [insDedupBy, ham]] at h
      exact Or.inr h
    · by_cases hlt : lt a m = true
      · rw [show insDedupBy lt a (m :: rest) = a :: m :: rest by
            simp [insDedupBy, ham, hlt]] at h
        rcases List.mem_cons.mp h with h | h
        · exact Or.inl h
        · exact Or.inr h
      · rw [show insDedupBy lt a (m :: rest) = m :: insDedupBy lt a rest by
            simp [insDedupBy, ham, hlt]] at h
        rcases List.mem_cons.mp h with h | h
        · exact Or.inr (by simp [h])
        · rcases ih h with h' | h'
          · exact Or.inl h'
          · exact Or.inr (List.mem_cons_of_mem _ h')

theorem pairwise_insDedupBy {α : Type} [DecidableEq α] (lt : α → α → Bool)
    (htrans : ∀ x y z, lt x y = true → lt y z = true → lt x z = true)
    (htotal : ∀ x y : α, x = y ∨ lt x y = true ∨ lt y x = true) (a : α) :
    ∀ l : List α, l.Pairwise (fun x y => lt x y = true) →
      (insDedupBy lt a l).Pairwise (fun x y => lt x y = true) := by
  intro l
  induction l with
  | nil => intro _; simp [insDedupBy]
  | cons m rest ih =>
    intro hp
    rcases List.pairwise_cons.mp hp with ⟨hm, hrest⟩
    by_cases ham : a = m
    · rw [show insDedupBy lt a (m :: rest) = m :: rest by simp [insDedupBy, ham]]
      exact hp
    · by_cases hlt : lt a m = true
      · rw [show insDedupBy lt a (m :: rest) = a :: m :: rest by simp [insDedupBy, ham, hlt]]
        refine List.pairwise_cons.mpr ⟨?_, hp⟩
        intro y hy
        rcases List.mem_cons.mp hy with h | h
        · rw [h]; exact hlt
        · exact htrans a m y hlt (hm y h)
      · have hmlt : lt m a = true := by
          rcases htotal a m with h | h | h
          · exact absurd h ham
          · exact absurd h hlt
          · exact h
        rw [show insDedupBy lt a (m :: rest) = m :: insDedupBy lt a rest by
            simp [insDedupBy, ham, hlt]]
        refine List.pairwise_cons.mpr ⟨?_, ih hrest⟩
        intro y hy
        rcases mem_insDedupBy lt a y _ hy with h | h
        · rw [h]; exact hmlt
        · exact hm y h

theorem pairwise_sortDedupBy {α : Type} [DecidableEq α] (lt : α → α → Bool)
    (htrans : ∀ x y z, lt x y = true → lt y z = true → lt x z = true)
    (htotal : ∀ x y : α, x = y ∨ lt x y = true ∨ lt y x = true) (l : List α) :
    (sortDedupBy lt l).Pairwise (fun x y => lt x y = true) := by
  induction l with
  | nil => simp [sortDedupBy]
  | cons a rest ih => exact pairwise_insDedupBy lt htrans htotal a _ ih

/-! ## Claim C6 -/

/-- C6 — in the array pivot, rows are keyed by strictly ascending index and
columns by `index` followed by the strictly sorted distinct child names
(`pivotArrayE` builds the header as `"index" :: pivotCols` and the rows from
`pivotIdxs`, both of which the first conjunct shows strictly sorted); the
end-to-end example `[{"x":1,"y":2},{"x":3,"y":4}]` under root tag `arr`
flattens to four rows and pivots to the 2-row table with columns
`index,x,y` and rows `0,1,2` / `1,3,4`; and on a duplicate `(index,
child_name)` pair the first observed value wins (last conjunct: the later
value `9` is discarded). -/
theorem C6_array_pivot :
    (∀ infos, (pivotIdxs infos).Pairwise (fun a b => a < b) ∧
      (pivotCols infos).Pairwise (fun a b => lexLt a.data b.data = true)) ∧
    flatten_dict [("arr", Val.list [Val.dict [("x", Val.int 1), ("y", Val.int 2)],
        Val.dict [("x", Val.int 3), ("y", Val.int 4)]])] =
      [("arr[0].x", Val.int 1), ("arr[0].y", Val.int 2),
        ("arr[1].x", Val.int 3), ("arr[1].y", Val.int 4)] ∧
    pivotArrayE [("arr[0].x", "1"), ("arr[0].y", "2"), ("arr[1].x", "3"), ("arr[1].y", "4")] =
      Except.ok (["index", "x", "y"], [["0", "1", "2"], ["1", "3", "4"]]) ∧
    pivotArrayE [("arr[0].x", "1"), ("arr[0].x", "9")] =
      Except.ok (["index", "x"], [["0", "1"]]) := by
  refine ⟨fun infos => ⟨?_, ?_⟩, ?_, rfl, rfl⟩
  · have h := pairwise_sortDedupBy (fun a b : Nat => decide (a < b))
      (fun x y z hx hy => decide_eq_true
        (lt_trans (of_decide_eq_true hx) (of_decide_eq_true hy)))
      (fun x y => by
        rcases Nat.lt_trichotomy x y with h | h | h
        · exact Or.inr (Or.inl (decide_eq_true h))
        · exact Or.inl h
        · exact Or.inr (Or.inr (decide_eq_true h)))
      ((definedOf infos).map (fun t => t.1))
    exact h.imp (fun hxy => of_decide_eq_true hxy)
  · exact pairwise_sortDedupBy (fun a b : String => lexLt a.data b.data)
      (fun x y z hx hy => lexLt_trans x.data y.data z.data hx hy)
      (fun x y => by
        rcases lexLt_total x.data y.data with h | h | h
        · exact Or.inl (congrArg String.mk h)
        · exact Or.inr (Or.inl h)
        · exact Or.inr (Or.inr h))
      ((definedOf infos).map (fun t => t.2.1))
  · simp only [flatten_dict, flattenRaw, flattenOne, flattenL]; rfl

/-! ## Claim C5 -/

theorem findRevNum_spec (ex : String → Bool) (og : String) :
    ∀ (fuel start : Nat),
      (∃ m, start ≤ m ∧ m ≤ start + fuel ∧ ex (mkRevName og m ++ ".csv") = false) →
      ex (mkRevName og (findRevNum ex og fuel start) ++ ".csv") = false ∧
      start ≤ findRevNum ex og fuel start ∧
      ∀ j, start ≤ j → j < findRevNum ex og fuel start →
        ex (mkRevName og j ++ ".csv") = true := by
  intro fuel
  induction fuel with
  | zero =>
    intro start h
    obtain ⟨m, h1, h2, h3⟩ := h
    have hm : m = start := by omega
    subst hm
    refine ⟨h3, le_rfl, fun j hj1 hj2 => ?_⟩
    rw [findRevNum] at hj2
    omega
  | succ fuel ih =>
    intro start h
    by_cases hex : ex (mkRevName og start ++ ".csv") = true
    · have hpre : ∃ m, start + 1 ≤ m ∧ m ≤ start + 1 + fuel ∧
          ex (mkRevName og m ++ ".csv") = false := by
        obtain ⟨m, h1, h2, h3⟩ := h
        refine ⟨m, ?_, by omega, h3⟩
        rcases Nat.eq_or_lt_of_le h1 with he | hlt
        · exfalso
          rw [← he] at h3
          rw [h3] at hex
          exact Bool.false_ne_true hex
        · omega
      have hrec := ih (start + 1) hpre
      rw [show findRevNum ex og (fuel + 1) start = findRevNum ex og fuel (start + 1) by
        rw [findRevNum, if_pos hex]]
      refine ⟨hrec.1, by omega, ?_⟩
      intro j hj1 hj2
      rcases Nat.eq_or_lt_of_le hj1 with he | hlt
      · rw [← he]; exact hex
      · exact hrec.2.2 j (by omega) hj2
    · simp only [Bool.not_eq_true] at hex
      rw [show findRevNum ex og (fuel + 1) start = start by
        rw [findRevNum, if_neg (by simp [hex])]]
      exact ⟨hex, le_rfl, fun j hj1 hj2 => absurd (lt_of_le_of_lt hj1 hj2) (lt_irrefl start)⟩

/-- C5 — the revision search of `format_csv` returns the lowest free
revision: the unsuffixed name when `<og>.csv` does not exist, else the
lowest `_N` (N ≥ 1) whose file does not exist, every smaller revision's file
existing.  The hypothesis — some revision in `[1, fuel]` is free — is the
finite-directory condition under which the Python `while` loop terminates.
The closed conjuncts check the spec's scenarios: a directory holding
`out.csv` and `out_1.csv` yields `out_2`, and two consecutive reservations
from an empty directory yield `out` and then (after `out.csv` is created)
`out_1`. -/
theorem C5_lowest_free_revision (ex : String → Bool) (og : String) (fuel : Nat)
    (h : ∃ m, 1 ≤ m ∧ m ≤ fuel ∧ ex (mkRevName og m ++ ".csv") = false) :
    (∃ k, reserveName ex og fuel = nameOfRev og k ∧
      ex (nameOfRev og k ++ ".csv") = false ∧
      ∀ j, j < k → ex (nameOfRev og j ++ ".csv") = true) ∧
    reserveNameFS ["out.csv", "out_1.csv"] "out" = "out_2" ∧
    reserveNameFS [] "out" = "out" ∧
    reserveNameFS ["out.csv"] "out" = "out_1" := by
  refine ⟨?_, by decide, by decide, by decide⟩
  by_cases hex : ex (og ++ ".csv") = true
  · obtain ⟨m, hm1, hm2, hm3⟩ := h
    have hspec := findRevNum_spec ex og fuel 1 ⟨m, hm1, by omega, hm3⟩
    refine ⟨findRevNum ex og fuel 1, ?_, ?_, ?_⟩
    · rw [reserveName, if_pos hex]
      rcases Nat.exists_eq_add_of_le hspec.2.1 with ⟨k, hk⟩
      rw [Nat.add_comm] at hk
      rw [hk]
      rfl
    · rcases Nat.exists_eq_add_of_le hspec.2.1 with ⟨k, hk⟩
      rw [Nat.add_comm] at hk
      have := hspec.1
      rw [hk] at this ⊢
      exact this
    · intro j hj
      cases j with
      | zero => exact hex
      | succ j' => exact hspec.2.2 (j' + 1) (by omega) hj
  · simp only [Bool.not_eq_true] at hex
    refine ⟨0, ?_, hex, fun j hj => absurd hj (Nat.not_lt_zero j)⟩
    rw [reserveName, if_neg (by simp [hex])]
    rfl

/-- C5 — witness: the free-slot hypothesis discharged on the concrete
directory `{out.csv, out_1.csv}`, giving `out_2`. -/
theorem C5_witness : reserveNameFS ["out.csv", "out_1.csv"] "out" = "out_2" :=
  (C5_lowest_free_revision (fun s => List.contains ["out.csv", "out_1.csv"] s) "out" 3
    ⟨2, by decide, by decide, by decide⟩).2.1

/-! ## Claim C9 -/

/-- C9 — when the raw file cannot be read (I/O error or malformed CSV),
`format_csv` reports failure to the caller (`false`) and leaves the
directory untouched: no pivot file is created and the raw file is not
deleted, for every combination of names, flags and directory state. -/
theorem C9_read_failure_leaves_state (e og_file file : String)
    (include_raw is_array : Bool) (fs : List String) :
    format_csv (Except.error e) og_file file include_raw is_array fs = (false, fs) := rfl

end TagReader
